import Mathlib

/-!
Verification of `src/examples/Pmat_to_camera.py`.

The file shallowly embeds the two numerical routines of the repository,
`rf_rq` (RQ decomposition of a 3x3 matrix through numpy's QR) and
`KRT_from_P` (camera-matrix decomposition P = K.[R|T]), over the exact
field ℚ, so that the floating-point tolerances of the specification
become exact equalities.

`numpy.linalg.qr` is external library code; it is modelled as an oracle:
the embedded `rf_rq` receives matrices `Q` and `U` that the theorems
constrain by the documented contract of a complete QR factorization
(`isQR`): `Q` orthogonal, `U` upper triangular, `Q * U` equal to the
matrix the source passes to `numpy.linalg.qr`.  All theorems quantify
over every pair satisfying that contract, hence hold in particular for
the pair numpy actually returns.

`numpy.linalg.lstsq` is likewise external; for a nonsingular square
system (the only case the specification's claims reach) its result is
the unique exact solution, which is embedded through Cramer's rule
(`lstsqSolve`).  For a singular system numpy returns a minimum-norm
least-squares solution; `lstsqSolve` agrees with it in the one singular
instance used below (zero right-hand side, where both return 0).
-/

open Matrix

abbrev Mat3 := Matrix (Fin 3) (Fin 3) ℚ

abbrev Mat34 := Matrix (Fin 3) (Fin 4) ℚ
abbrev Vec3 := Fin 3 → ℚ

/-- Index reversal on `Fin 3`, the `[::-1]` slicing of the source. -/
def rev3 : Fin 3 → Fin 3 := fun i => ⟨2 - i.val, by omega⟩

/-- `M[::-1, ::-1]`: reverse the row order and the column order. -/
def flipM (M : Mat3) : Mat3 := Matrix.of fun i j => M (rev3 i) (rev3 j)

/-- Upper-triangular predicate: entries below the diagonal vanish. -/
def upperTri (M : Mat3) : Prop := ∀ i j : Fin 3, (j : ℕ) < (i : ℕ) → M i j = 0

instance : DecidablePred upperTri := fun M =>
  show Decidable (∀ i j : Fin 3, (j : ℕ) < (i : ℕ) → M i j = 0) from inferInstance

/-- `numpy.sign` on ℚ: -1, 0 or 1 (note `sign 0 = 0`). -/
def numpySign (x : ℚ) : ℚ := if x < 0 then -1 else if x = 0 then 0 else 1

/-- Contract of `numpy.linalg.qr(A, 'complete')`: `Q` orthogonal, `U`
upper triangular, `A = Q * U`. -/
def isQR (A Q U : Mat3) : Prop := Qᵀ * Q = 1 ∧ upperTri U ∧ Q * U = A

instance (A Q U : Mat3) : Decidable (isQR A Q U) := by
  unfold isQR; infer_instance

/-- Embedding of `rf_rq` (source lines 43-55).  The call
`numpy.linalg.qr(P.T[::-1,::-1], 'complete')` is replaced by the oracle
arguments `Q`, `U`; the theorems assume `isQR (flipM Aᵀ) Q U` where `A`
is the matrix passed to `rf_rq`.  The remaining lines are translated
directly: `q = q.T; q = q[::-1,::-1]`, `r = r.T; r = r[::-1,::-1]`, and
the sign fix `if det(q) < 0: r[:,0] *= -1; q[0,:] *= -1`. -/
def rf_rq (Q U : Mat3) : Mat3 × Mat3 :=
  let q := flipM Qᵀ
  let r := flipM Uᵀ
  if q.det < 0 then
    (Matrix.of fun i j => if j = 0 then -(r i j) else r i j,
     Matrix.of fun i j => if i = 0 then -(q i j) else q i j)
  else (r, q)

/-- `H = P[:,0:3]`: the leading 3x3 block of a 3x4 matrix. -/
def leading (P : Mat34) : Mat3 := Matrix.of fun i j => P i (Fin.castSucc j)

/-- `P[:,-1]`: the fourth column of a 3x4 matrix. -/
def col3 (P : Mat34) : Vec3 := fun i => P i 3

/-- Source line 17: `K /= K[-1,-1]` (entrywise division of `K` by its
bottom-right entry; no guard of any kind in the source). -/
def normalizeK (K : Mat3) : Mat3 := (K 2 2)⁻¹ • K

/-- Source line 21: `sg = numpy.diag(numpy.sign(numpy.diag(K)))`. -/
def signMat (K : Mat3) : Mat3 := Matrix.diagonal fun i => numpySign (K i i)

/-- Source lines 21-24, the diagonal sign-canonicalization step:
`K = K * sg; R = sg * R` with `sg = diag(sign(diag(K)))`. -/
def signFix (K R : Mat3) : Mat3 × Mat3 := (K * signMat K, signMat K * R)

/-- Source lines 26-27: `if det(R) < 0: R = -R`. -/
def fixDet (R : Mat3) : Mat3 := if R.det < 0 then -R else R

/-- Model of `C = numpy.linalg.lstsq(A, b)[0]` for the square system of
source line 29: Cramer's rule `(det A)⁻¹ • cramer`, which is the unique
exact (hence least-squares) solution whenever `det A ≠ 0`. -/
def lstsqSolve (A : Mat3) (b : Vec3) : Vec3 :=
  (A.det)⁻¹ • fun i => (A.updateColumn i b).det

/-- Source lines 17-30 after the `rf_rq` call: given the factors
`r`, `q` returned by `rf_rq`, the block `H`, and the fourth column `p4`,
produce `(K, R, T)`:
`K /= K[2,2]`; `K = K*sg; R = sg*R`; `if det(R) < 0: R = -R`;
`C = lstsq(-H, p4)[0]`; `T = -R*C`. -/
def krtCore (r q H : Mat3) (p4 : Vec3) : Mat3 × Mat3 × Vec3 :=
  let K1 := normalizeK r
  let KR := signFix K1 q
  let R := fixDet KR.2
  let C := lstsqSolve (-H) p4
  (KR.1, R, -(R.mulVec C))

/-- Embedding of `KRT_from_P` (source lines 11-31): split `P` into its
leading block `H` and fourth column, RQ-decompose `H` (with the QR
oracle pair `Q`, `U` standing for `numpy.linalg.qr` applied to
`flipM Hᵀ`), then run the normalization, sign canonicalization, and
translation recovery of lines 17-30. -/
def KRT_from_P (P : Mat34) (Q U : Mat3) : Mat3 × Mat3 × Vec3 :=
  let H := leading P
  let rq := rf_rq Q U
  krtCore rq.1 rq.2 H (col3 P)

/-- The 3x4 matrix `[R | T]`. -/
def augment (R : Mat3) (T : Vec3) : Mat34 :=
  Matrix.of fun i j => if h : (j : ℕ) < 3 then R i ⟨j, h⟩ else T i

/-- The `±1` diagonal vector implementing `r[:,0] *= -1; q[0,:] *= -1`. -/
def negDvec : Fin 3 → ℚ := fun i => if i = 0 then -1 else 1

/-- Its diagonal matrix. -/
def negD : Mat3 := Matrix.diagonal negDvec

/-! ### Concrete data of the source's `test2` -/

/-- `test2`'s matrix `P` (source lines 128-132). -/
def Ptest : Mat34 := !![2, 0, -10, 282; 0, -3, -14, 417; 0, 0, -1, -18]

/-- The intrinsic matrix `test2` documents (source line 134). -/
def Ktest : Mat3 := !![2, 0, 10; 0, 3, 14; 0, 0, 1]

/-- The rotation `test2` documents (source line 135). -/
def Rtest : Mat3 := !![1, 0, 0; 0, -1, 0; 0, 0, -1]

/-- The translation `test2` documents (source line 136). -/
def Ttest : Vec3 := ![231, 223, -18]

/-- Leading block of `Ptest`. -/
def Htest : Mat3 := !![2, 0, -10; 0, -3, -14; 0, 0, -1]

/-- A concrete upper-triangular factor: `flipM Htestᵀ` is already upper
triangular, so `(1, flipM Htestᵀ)` is a valid complete QR pair for it. -/
def Utest : Mat3 := !![-1, -14, -10; 0, -3, 0; 0, 0, 2]

/-- Intermediate: `Htest` scale-normalized by its corner `-1`. -/
def K1test : Mat3 := !![-2, 0, 10; 0, 3, 14; 0, 0, 1]

/-- Intermediate: the sign matrix of `K1test`. -/
def SGtest : Mat3 := !![-1, 0, 0; 0, 1, 0; 0, 0, 1]

/-- Intermediate: the camera center of `test2`. -/
def Ctest : Vec3 := ![-231, 223, -18]

/-! ### Concrete singular/degenerate inputs -/

/-- A 3x4 input whose leading 3x3 block is singular (rank 2). -/
def Psing : Mat34 := !![0, 0, 0, 0; 0, 1, 0, 0; 0, 0, 1, 0]

/-- Its leading block `diag(0,1,1)`, of rank 2. -/
def Hsing : Mat3 := !![0, 0, 0; 0, 1, 0; 0, 0, 1]

/-- `flipM Hsingᵀ = diag(1,1,0)` is already upper triangular, so
`(1, Usg)` is a valid complete QR pair for it. -/
def Usg : Mat3 := !![1, 0, 0; 0, 1, 0; 0, 0, 0]

/-- An intrinsic candidate whose corner entry is zero. -/
def Kzero : Mat3 := !![1, 0, 0; 0, 1, 0; 0, 0, 0]

/-- An upper-triangular matrix with `K[1,1] = 0`, `K[0,1] ≠ 0` and
`K[2,2] = 1`: a matrix on which the sign-canonicalization step changes
the product `K*R`. -/
def Kc6 : Mat3 := !![1, 1, 0; 0, 0, 0; 0, 0, 1]

/-- The upper-triangular factor showing `Kc6` is reachable:
`(1, Uc6)` is a valid QR pair for `flipM Kc6ᵀ`, and running `rf_rq` and
the scale normalization on it hands exactly `(Kc6, 1)` to the
sign-canonicalization step. -/
def Uc6 : Mat3 := !![1, 0, 0; 0, 0, 1; 0, 0, 1]

/-- The sign matrix of `Kc6`: `diag(sign 1, sign 0, sign 1) = diag(1,0,1)`. -/
def SGc6 : Mat3 := !![1, 0, 0; 0, 0, 0; 0, 0, 1]

/-! ### Basic facts about index reversal and `flipM` -/

theorem rev3_rev3 (i : Fin 3) : rev3 (rev3 i) = i := by fin_cases i <;> rfl

theorem rev3_inj {i j : Fin 3} (h : rev3 i = rev3 j) : i = j := by
  have h2 := congrArg rev3 h
  rwa [rev3_rev3, rev3_rev3] at h2

theorem rev3_lt_iff {i j : Fin 3} : (rev3 i : ℕ) < (rev3 j : ℕ) ↔ (j : ℕ) < (i : ℕ) := by
  fin_cases i <;> fin_cases j <;> decide

theorem flipM_apply (M : Mat3) (i j : Fin 3) : flipM M i j = M (rev3 i) (rev3 j) := rfl

theorem flipM_mul (M N : Mat3) : flipM M * flipM N = flipM (M * N) := by
  ext i j
  simp only [flipM, Matrix.of_apply, Matrix.mul_apply, Fin.sum_univ_three,
    show rev3 0 = 2 from rfl, show rev3 1 = 1 from rfl, show rev3 2 = 0 from rfl]
  ring

theorem flipM_transpose (M : Mat3) : (flipM M)ᵀ = flipM Mᵀ := by
  ext i j; rfl

theorem flipM_flipM (M : Mat3) : flipM (flipM M) = M := by
  ext i j; simp [flipM, rev3_rev3]

theorem flipM_one : flipM 1 = 1 := by
  ext i j
  have h : rev3 i = rev3 j ↔ i = j := ⟨rev3_inj, fun h => by rw [h]⟩
  simp [flipM, Matrix.one_apply, h]

theorem flipM_smul (c : ℚ) (M : Mat3) : flipM (c • M) = c • flipM M := by
  ext i j; rfl

theorem flipM_diagonal (d : Fin 3 → ℚ) :
    flipM (Matrix.diagonal d) = Matrix.diagonal (fun i => d (rev3 i)) := by
  ext i j
  by_cases h : i = j
  · subst h; simp [flipM, Matrix.diagonal_apply]
  · have h2 : ¬ rev3 i = rev3 j := fun hh => h (rev3_inj hh)
    simp [flipM, Matrix.diagonal_apply, h, h2]

/-- `flipM Uᵀ` is upper triangular whenever `U` is. -/
theorem upperTri_flip_transpose {U : Mat3} (hU : upperTri U) : upperTri (flipM Uᵀ) := by
  intro i j hij
  show Uᵀ (rev3 i) (rev3 j) = 0
  exact hU (rev3 j) (rev3 i) (rev3_lt_iff.mpr hij)

/-- The determinant of an upper-triangular 3x3 matrix is the product of
its diagonal. -/
theorem det_of_upperTri {M : Mat3} (h : upperTri M) :
    M.det = M 0 0 * M 1 1 * M 2 2 := by
  rw [Matrix.det_fin_three, h 1 0 (by decide), h 2 0 (by decide), h 2 1 (by decide)]
  ring

/-! ### Facts about `numpySign` -/

theorem numpySign_of_pos {x : ℚ} (h : 0 < x) : numpySign x = 1 := by
  simp [numpySign, not_lt.2 h.le, h.ne']

theorem numpySign_of_neg {x : ℚ} (h : x < 0) : numpySign x = -1 := by
  simp [numpySign, h]

theorem numpySign_zero : numpySign 0 = 0 := by simp [numpySign]

theorem numpySign_one : numpySign 1 = 1 := numpySign_of_pos one_pos

theorem mul_numpySign_pos {x : ℚ} (h : x ≠ 0) : 0 < x * numpySign x := by
  rcases h.lt_or_lt with hx | hx
  · rw [numpySign_of_neg hx]; nlinarith
  · rw [numpySign_of_pos hx]; nlinarith

theorem numpySign_sq {x : ℚ} (h : x ≠ 0) : numpySign x * numpySign x = 1 := by
  rcases h.lt_or_lt with hx | hx
  · rw [numpySign_of_neg hx]; norm_num
  · rw [numpySign_of_pos hx]; norm_num

theorem numpySign_ne_zero {x : ℚ} (h : x ≠ 0) : numpySign x ≠ 0 := by
  rcases h.lt_or_lt with hx | hx
  · rw [numpySign_of_neg hx]; norm_num
  · rw [numpySign_of_pos hx]; norm_num

theorem numpySign_pm {x : ℚ} (h : x ≠ 0) : numpySign x = 1 ∨ numpySign x = -1 := by
  rcases h.lt_or_lt with hx | hx
  · exact Or.inr (numpySign_of_neg hx)
  · exact Or.inl (numpySign_of_pos hx)

theorem numpySign_neg_arg (x : ℚ) : numpySign (-x) = -numpySign x := by
  rcases lt_trichotomy x 0 with hx | hx | hx
  · rw [numpySign_of_neg hx, numpySign_of_pos (by linarith)]; norm_num
  · subst hx; simp [numpySign]
  · rw [numpySign_of_pos hx, numpySign_of_neg (by linarith)]

/-- `numpySign` is equivariant under multiplication by a unit `±1`. -/
theorem numpySign_mul_unit {e : ℚ} (x : ℚ) (he : e = 1 ∨ e = -1) :
    numpySign (x * e) = e * numpySign x := by
  rcases he with he | he <;> subst he
  · rw [mul_one, one_mul]
  · rw [mul_neg_one, numpySign_neg_arg, neg_one_mul]

/-! ### Orthogonality helpers -/

theorem orth_comm {q : Mat3} (h : qᵀ * q = 1) : q * qᵀ = 1 :=
  Matrix.mul_eq_one_comm.mp h

theorem det_mul_self_of_orth {q : Mat3} (h : qᵀ * q = 1) : q.det * q.det = 1 := by
  have h2 := congrArg Matrix.det h
  rwa [Matrix.det_mul, Matrix.det_transpose, Matrix.det_one] at h2

theorem det_pm_of_orth {q : Mat3} (h : qᵀ * q = 1) : q.det = 1 ∨ q.det = -1 :=
  mul_self_eq_one_iff.mp (det_mul_self_of_orth h)

theorem det_ne_zero_of_orth {q : Mat3} (h : qᵀ * q = 1) : q.det ≠ 0 := by
  rcases det_pm_of_orth h with h2 | h2 <;> rw [h2] <;> norm_num

/-! ### Structure of `rf_rq` -/

theorem negD_transpose : negDᵀ = negD := Matrix.diagonal_transpose _

theorem negD_mul_negD : negD * negD = 1 := by
  have h : (fun i => negDvec i * negDvec i) = fun _ => (1 : ℚ) := by
    funext i; simp only [negDvec]; split_ifs <;> norm_num
  rw [negD, Matrix.diagonal_mul_diagonal, h, Matrix.diagonal_one]

theorem negD_det : negD.det = -1 := by
  rw [negD, Matrix.det_diagonal, Fin.prod_univ_three]
  simp [negDvec]

/-- `rf_rq` written as a multiplication by the `±1` diagonal `negD`:
negating column 0 of `r` is `r * negD`, negating row 0 of `q` is
`negD * q`. -/
theorem rf_rq_eq (Q U : Mat3) :
    rf_rq Q U =
      if (flipM Qᵀ).det < 0 then (flipM Uᵀ * negD, negD * flipM Qᵀ)
      else (flipM Uᵀ, flipM Qᵀ) := by
  simp only [rf_rq]
  split_ifs with h
  · refine Prod.ext ?_ ?_
    · show (Matrix.of fun i j => if j = 0 then -(flipM Uᵀ i j) else flipM Uᵀ i j) =
        flipM Uᵀ * negD
      ext i j
      rw [Matrix.of_apply, negD, Matrix.mul_diagonal]
      simp only [negDvec]
      split_ifs <;> ring
    · show (Matrix.of fun i j => if i = 0 then -(flipM Qᵀ i j) else flipM Qᵀ i j) =
        negD * flipM Qᵀ
      ext i j
      rw [Matrix.of_apply, negD, Matrix.diagonal_mul]
      simp only [negDvec]
      split_ifs <;> ring
  · rfl

/-- Main structural facts about `rf_rq` under the QR-oracle contract:
the first factor is upper triangular, the product of the two factors is
the input `A` of the source's `rf_rq`, the second factor is orthogonal,
and (after the sign fix) its determinant is exactly `+1`. -/
theorem rf_rq_spec {A Q U : Mat3} (h : isQR (flipM Aᵀ) Q U) :
    upperTri (rf_rq Q U).1 ∧
    (rf_rq Q U).1 * (rf_rq Q U).2 = A ∧
    (rf_rq Q U).2ᵀ * (rf_rq Q U).2 = 1 ∧
    (rf_rq Q U).2.det = 1 := by
  obtain ⟨hQ, hU, hQU⟩ := h
  have hq0 : (flipM Qᵀ)ᵀ * flipM Qᵀ = 1 := by
    rw [flipM_transpose, Matrix.transpose_transpose, flipM_mul, orth_comm hQ, flipM_one]
  have hprod : flipM Uᵀ * flipM Qᵀ = A := by
    rw [flipM_mul, ← Matrix.transpose_mul, hQU, flipM_transpose,
      Matrix.transpose_transpose, flipM_flipM]
  have hq0pm := det_pm_of_orth hq0
  rcases lt_or_ge (flipM Qᵀ).det 0 with hdet | hdet
  · have he : rf_rq Q U = (flipM Uᵀ * negD, negD * flipM Qᵀ) := by
      rw [rf_rq_eq, if_pos hdet]
    have hdq0 : (flipM Qᵀ).det = -1 := by
      rcases hq0pm with h1 | h1
      · exfalso; rw [h1] at hdet; norm_num at hdet
      · exact h1
    simp only [he]
    refine ⟨?_, ?_, ?_, ?_⟩
    · intro i j hij
      rw [negD, Matrix.mul_diagonal, upperTri_flip_transpose hU i j hij, zero_mul]
    · rw [mul_assoc, ← mul_assoc negD negD, negD_mul_negD, one_mul, hprod]
    · rw [Matrix.transpose_mul, negD_transpose, mul_assoc, ← mul_assoc negD negD,
        negD_mul_negD, one_mul, hq0]
    · rw [Matrix.det_mul, negD_det, hdq0]; norm_num
  · have he : rf_rq Q U = (flipM Uᵀ, flipM Qᵀ) := by
      rw [rf_rq_eq, if_neg (not_lt.mpr hdet)]
    have hdq0 : (flipM Qᵀ).det = 1 := by
      rcases hq0pm with h1 | h1
      · exact h1
      · exfalso; rw [h1] at hdet; norm_num at hdet
    simp only [he]
    exact ⟨upperTri_flip_transpose hU, hprod, hq0, hdq0⟩

/-! ### The canonicalization pipeline -/

theorem krtCore_K (r q H : Mat3) (p4 : Vec3) :
    (krtCore r q H p4).1 = normalizeK r * signMat (normalizeK r) := rfl

theorem krtCore_R (r q H : Mat3) (p4 : Vec3) :
    (krtCore r q H p4).2.1 = fixDet (signMat (normalizeK r) * q) := rfl

theorem krtCore_T (r q H : Mat3) (p4 : Vec3) :
    (krtCore r q H p4).2.2 =
      -((krtCore r q H p4).2.1.mulVec (lstsqSolve (-H) p4)) := rfl

theorem normalizeK_apply (K : Mat3) (i j : Fin 3) :
    normalizeK K i j = (K 2 2)⁻¹ * K i j := rfl

theorem normalizeK_22 {K : Mat3} (h : K 2 2 ≠ 0) : normalizeK K 2 2 = 1 :=
  inv_mul_cancel₀ h

theorem upperTri_normalizeK {K : Mat3} (h : upperTri K) : upperTri (normalizeK K) :=
  fun i j hij => by rw [normalizeK_apply, h i j hij, mul_zero]

theorem signMat_mul_self {K : Mat3} (h : ∀ i, K i i ≠ 0) :
    signMat K * signMat K = 1 := by
  rw [signMat, Matrix.diagonal_mul_diagonal]
  have h2 : (fun i => numpySign (K i i) * numpySign (K i i)) = fun _ => (1 : ℚ) := by
    funext i; exact numpySign_sq (h i)
  rw [h2, Matrix.diagonal_one]

theorem signMat_transpose (K : Mat3) : (signMat K)ᵀ = signMat K :=
  Matrix.diagonal_transpose _

theorem diag_ne_of_upperTri_det {r : Mat3} (htri : upperTri r) (h : r.det ≠ 0)
    (i : Fin 3) : r i i ≠ 0 := by
  rw [det_of_upperTri htri, mul_ne_zero_iff, mul_ne_zero_iff] at h
  fin_cases i
  · exact h.1.1
  · exact h.1.2
  · exact h.2

theorem normalizeK_diag_ne {r : Mat3} (htri : upperTri r) (h : r.det ≠ 0)
    (i : Fin 3) : normalizeK r i i ≠ 0 := by
  rw [normalizeK_apply]
  exact mul_ne_zero (inv_ne_zero (diag_ne_of_upperTri_det htri h 2))
    (diag_ne_of_upperTri_det htri h i)

theorem canonK_upperTri {r : Mat3} (htri : upperTri r) :
    upperTri (normalizeK r * signMat (normalizeK r)) := fun i j hij => by
  rw [signMat, Matrix.mul_diagonal, upperTri_normalizeK htri i j hij, zero_mul]

theorem canonK_diag_pos {r : Mat3} (hne : ∀ i, normalizeK r i i ≠ 0) (i : Fin 3) :
    0 < (normalizeK r * signMat (normalizeK r)) i i := by
  rw [signMat, Matrix.mul_diagonal]
  exact mul_numpySign_pos (hne i)

theorem canonK_22 {r : Mat3} (h22 : r 2 2 ≠ 0) :
    (normalizeK r * signMat (normalizeK r)) 2 2 = 1 := by
  rw [signMat, Matrix.mul_diagonal, normalizeK_22 h22, numpySign_one, mul_one]

theorem sgq_orth {K1 q : Mat3} (hsg : ∀ i, K1 i i ≠ 0) (hq : qᵀ * q = 1) :
    (signMat K1 * q)ᵀ * (signMat K1 * q) = 1 := by
  rw [Matrix.transpose_mul, signMat_transpose, mul_assoc, ← mul_assoc (signMat K1),
    signMat_mul_self hsg, one_mul, hq]

theorem fixDet_orth {R : Mat3} (h : Rᵀ * R = 1) : (fixDet R)ᵀ * fixDet R = 1 := by
  unfold fixDet; split_ifs with hlt
  · rw [Matrix.transpose_neg, neg_mul, mul_neg, neg_neg, h]
  · exact h

theorem fixDet_det_one {R : Mat3} (h : Rᵀ * R = 1) : (fixDet R).det = 1 := by
  have hpm := det_pm_of_orth h
  unfold fixDet; split_ifs with hlt
  · rw [Matrix.det_neg, Fintype.card_fin]
    rcases hpm with h1 | h1
    · exfalso; rw [h1] at hlt; norm_num at hlt
    · rw [h1]; norm_num
  · rcases hpm with h1 | h1
    · exact h1
    · exfalso; rw [h1] at hlt; norm_num at hlt

theorem canon_prod {r q H : Mat3} (hK1 : ∀ i, normalizeK r i i ≠ 0)
    (h22 : r 2 2 ≠ 0) (hrq : r * q = H) :
    ∃ s : ℚ, s ≠ 0 ∧
      (normalizeK r * signMat (normalizeK r)) * fixDet (signMat (normalizeK r) * q) =
        s • H := by
  have base : (normalizeK r * signMat (normalizeK r)) * (signMat (normalizeK r) * q) =
      (r 2 2)⁻¹ • H := by
    rw [mul_assoc, ← mul_assoc (signMat (normalizeK r)), signMat_mul_self hK1, one_mul,
      normalizeK, Matrix.smul_mul, hrq]
  unfold fixDet; split_ifs with h
  · exact ⟨-(r 2 2)⁻¹, neg_ne_zero.mpr (inv_ne_zero h22), by
      rw [mul_neg, base, ← neg_smul]⟩
  · exact ⟨(r 2 2)⁻¹, inv_ne_zero h22, base⟩

theorem lstsqSolve_exact {A : Mat3} (hA : A.det ≠ 0) (b : Vec3) :
    A.mulVec (lstsqSolve A b) = b := by
  have hc : (fun i => (A.updateColumn i b).det) = Matrix.cramer A b := by
    funext i; rw [Matrix.cramer_apply]
  rw [lstsqSolve, hc, Matrix.mulVec_smul, Matrix.mulVec_cramer, smul_smul,
    inv_mul_cancel₀ hA, one_smul]

theorem solveC_eq {H : Mat3} (hH : H.det ≠ 0) (p4 : Vec3) :
    H.mulVec (lstsqSolve (-H) p4) = -p4 := by
  have hdet : (-H).det ≠ 0 := by
    rw [Matrix.det_neg, Fintype.card_fin]
    exact mul_ne_zero (by norm_num) hH
  have h1 := lstsqSolve_exact hdet p4
  rw [Matrix.neg_mulVec] at h1
  exact neg_eq_iff_eq_neg.mp h1


/-! ### Invariance of the pipeline under the `±1` diagonal QR ambiguity -/

theorem const_diagonal_mul (c : ℚ) (M : Mat3) :
    Matrix.diagonal (fun _ => c) * M = c • M := by
  ext i j; rw [Matrix.diagonal_mul]; rfl

theorem krtCore_twist (r q H : Mat3) (p4 : Vec3) (d : Fin 3 → ℚ)
    (hd : ∀ i, d i = 1 ∨ d i = -1)
    (hrdiag : ∀ i, r i i ≠ 0) (hqdet : q.det ≠ 0) :
    krtCore (r * Matrix.diagonal d) (Matrix.diagonal d * q) H p4 =
      krtCore r q H p4 := by
  have hd2 : d 2 = 1 ∨ d 2 = -1 := hd 2
  have hdd : ∀ i : Fin 3, d 2 * d i = 1 ∨ d 2 * d i = -1 := by
    intro i
    rcases hd2 with h2 | h2 <;> rcases hd i with h | h <;> rw [h2, h] <;> norm_num
  have hK1 : normalizeK (r * Matrix.diagonal d) =
      normalizeK r * Matrix.diagonal (fun j => d 2 * d j) := by
    ext i j
    simp only [normalizeK_apply, Matrix.mul_diagonal]
    have hinv : (d 2)⁻¹ = d 2 := by rcases hd2 with h | h <;> rw [h] <;> norm_num
    rw [mul_inv, hinv]
    ring
  have harg : (fun i => numpySign ((normalizeK r *
        Matrix.diagonal (fun j => d 2 * d j)) i i)) =
      fun i => numpySign (normalizeK r i i) * (d 2 * d i) := by
    funext i
    rw [Matrix.mul_diagonal, numpySign_mul_unit _ (hdd i), mul_comm]
  have hsg : signMat (normalizeK (r * Matrix.diagonal d)) =
      signMat (normalizeK r) * Matrix.diagonal (fun j => d 2 * d j) := by
    rw [hK1, signMat, signMat, Matrix.diagonal_mul_diagonal, harg]
  have hEE : Matrix.diagonal (fun j : Fin 3 => d 2 * d j) *
      Matrix.diagonal (fun j : Fin 3 => d 2 * d j) = 1 := by
    rw [Matrix.diagonal_mul_diagonal]
    have h1 : (fun i => (fun j : Fin 3 => d 2 * d j) i * (fun j : Fin 3 => d 2 * d j) i) =
        fun _ : Fin 3 => (1 : ℚ) := by
      funext i; rcases hdd i with h | h <;> simp only [] <;> rw [h] <;> norm_num
    rw [h1, Matrix.diagonal_one]
  have hED : Matrix.diagonal (fun j : Fin 3 => d 2 * d j) * Matrix.diagonal d =
      Matrix.diagonal (fun _ : Fin 3 => d 2) := by
    rw [Matrix.diagonal_mul_diagonal]
    have h1 : (fun i => (fun j : Fin 3 => d 2 * d j) i * d i) =
        fun _ : Fin 3 => d 2 := by
      funext i
      simp only []
      rcases hd i with h | h <;> rw [h] <;> ring
    rw [h1]
  have hKfin : normalizeK (r * Matrix.diagonal d) *
      signMat (normalizeK (r * Matrix.diagonal d)) =
      normalizeK r * signMat (normalizeK r) := by
    rw [hsg, hK1]
    have hcomm : signMat (normalizeK r) * Matrix.diagonal (fun j => d 2 * d j) =
        Matrix.diagonal (fun j => d 2 * d j) * signMat (normalizeK r) := by
      rw [signMat, Matrix.diagonal_mul_diagonal, Matrix.diagonal_mul_diagonal]
      have h1 : (fun i => numpySign (normalizeK r i i) * (fun j : Fin 3 => d 2 * d j) i) =
          fun i => (fun j : Fin 3 => d 2 * d j) i * numpySign (normalizeK r i i) := by
        funext i; ring
      rw [h1]
    rw [hcomm, ← mul_assoc,
      mul_assoc (normalizeK r) (Matrix.diagonal fun j => d 2 * d j), hEE, mul_one]
  have hR2 : signMat (normalizeK (r * Matrix.diagonal d)) * (Matrix.diagonal d * q) =
      d 2 • (signMat (normalizeK r) * q) := by
    rw [hsg, mul_assoc, ← mul_assoc (Matrix.diagonal fun j => d 2 * d j), hED,
      const_diagonal_mul, Matrix.mul_smul]
  have hK1diag : ∀ i, normalizeK r i i ≠ 0 := fun i => by
    rw [normalizeK_apply]
    exact mul_ne_zero (inv_ne_zero (hrdiag 2)) (hrdiag i)
  have hdetsg : (signMat (normalizeK r)).det ≠ 0 := by
    rw [signMat, Matrix.det_diagonal, Fin.prod_univ_three]
    exact mul_ne_zero (mul_ne_zero (numpySign_ne_zero (hK1diag 0))
      (numpySign_ne_zero (hK1diag 1))) (numpySign_ne_zero (hK1diag 2))
  have hdetR2 : (signMat (normalizeK r) * q).det ≠ 0 := by
    rw [Matrix.det_mul]
    exact mul_ne_zero hdetsg hqdet
  have hfix : fixDet (d 2 • (signMat (normalizeK r) * q)) =
      fixDet (signMat (normalizeK r) * q) := by
    rcases hd2 with h2 | h2
    · rw [h2, one_smul]
    · rw [h2, neg_one_smul]
      unfold fixDet
      rw [Matrix.det_neg, Fintype.card_fin]
      have he : (-1 : ℚ) ^ 3 * (signMat (normalizeK r) * q).det =
          -(signMat (normalizeK r) * q).det := by ring
      rw [he]
      rcases lt_trichotomy (signMat (normalizeK r) * q).det 0 with hl | hl | hl
      · rw [if_neg (by linarith), if_pos hl]
      · exact absurd hl hdetR2
      · rw [if_pos (by linarith), if_neg (by linarith), neg_neg]
  have hRfin : fixDet (signMat (normalizeK (r * Matrix.diagonal d)) *
      (Matrix.diagonal d * q)) = fixDet (signMat (normalizeK r) * q) := by
    rw [hR2, hfix]
  refine Prod.ext ?_ (Prod.ext ?_ ?_)
  · rw [krtCore_K, krtCore_K, hKfin]
  · rw [krtCore_R, krtCore_R, hRfin]
  · rw [krtCore_T, krtCore_T, krtCore_R, krtCore_R, hRfin]

/-! ### Uniqueness of QR up to a `±1` diagonal -/

/-- Two complete QR factorizations of the same nonsingular matrix differ
exactly by a `±1` diagonal: `U' = D * U`, `Q' = Q * D`. -/
theorem qr_twist {A Q U Q' U' : Mat3} (hA : A.det ≠ 0)
    (h : isQR A Q U) (h' : isQR A Q' U') :
    ∃ d : Fin 3 → ℚ, (∀ i, d i = 1 ∨ d i = -1) ∧
      U' = Matrix.diagonal d * U ∧ Q' = Q * Matrix.diagonal d := by
  obtain ⟨hQ, hU, hQU⟩ := h
  obtain ⟨hQ', hU', hQU'⟩ := h'
  have hQQt : Q * Qᵀ = 1 := orth_comm hQ
  have hQ'Q't : Q' * Q'ᵀ = 1 := orth_comm hQ'
  set M := Q'ᵀ * Q with hM
  have hMU : M * U = U' := by
    calc M * U = Q'ᵀ * (Q * U) := by rw [hM, mul_assoc]
    _ = Q'ᵀ * (Q' * U') := by rw [hQU, hQU']
    _ = (Q'ᵀ * Q') * U' := by rw [mul_assoc]
    _ = U' := by rw [hQ', one_mul]
  have hMorth : Mᵀ * M = 1 := by
    rw [hM, Matrix.transpose_mul, Matrix.transpose_transpose, mul_assoc,
      ← mul_assoc Q' Q'ᵀ, hQ'Q't, one_mul, hQ]
  have hMM : M * Mᵀ = 1 := orth_comm hMorth
  have hdetU : U.det ≠ 0 := by
    intro h0; apply hA; rw [← hQU, Matrix.det_mul, h0, mul_zero]
  have hUdiag := diag_ne_of_upperTri_det hU hdetU
  have eMU : ∀ i j, (M * U) i j = U' i j := fun i j => by rw [hMU]
  have h10 : M 1 0 = 0 := by
    have e := eMU 1 0
    rw [Matrix.mul_apply, Fin.sum_univ_three, hU 1 0 (by decide), hU 2 0 (by decide),
      hU' 1 0 (by decide), mul_zero, mul_zero, add_zero, add_zero] at e
    exact (mul_eq_zero.mp e).resolve_right (hUdiag 0)
  have h20 : M 2 0 = 0 := by
    have e := eMU 2 0
    rw [Matrix.mul_apply, Fin.sum_univ_three, hU 1 0 (by decide), hU 2 0 (by decide),
      hU' 2 0 (by decide), mul_zero, mul_zero, add_zero, add_zero] at e
    exact (mul_eq_zero.mp e).resolve_right (hUdiag 0)
  have h21 : M 2 1 = 0 := by
    have e := eMU 2 1
    rw [Matrix.mul_apply, Fin.sum_univ_three, hU 2 1 (by decide),
      hU' 2 1 (by decide), h20, zero_mul, zero_add, mul_zero, add_zero] at e
    exact (mul_eq_zero.mp e).resolve_right (hUdiag 1)
  have oc : ∀ i j, (Mᵀ * M) i j = (1 : Mat3) i j := fun i j => by rw [hMorth]
  have rc : ∀ i j, (M * Mᵀ) i j = (1 : Mat3) i j := fun i j => by rw [hMM]
  have m00 : M 0 0 * M 0 0 = 1 := by
    have e := oc 0 0
    simp only [Matrix.mul_apply, Fin.sum_univ_three, Matrix.transpose_apply] at e
    rw [h10, h20, Matrix.one_apply_eq] at e
    linarith
  have hm00 : M 0 0 ≠ 0 := by
    intro h0; rw [h0, mul_zero] at m00; norm_num at m00
  have h01 : M 0 1 = 0 := by
    have e := oc 0 1
    simp only [Matrix.mul_apply, Fin.sum_univ_three, Matrix.transpose_apply] at e
    rw [h10, h20, Matrix.one_apply_ne (by decide)] at e
    have e2 : M 0 0 * M 0 1 = 0 := by linarith
    exact (mul_eq_zero.mp e2).resolve_left hm00
  have h02 : M 0 2 = 0 := by
    have e := oc 0 2
    simp only [Matrix.mul_apply, Fin.sum_univ_three, Matrix.transpose_apply] at e
    rw [h10, h20, Matrix.one_apply_ne (by decide)] at e
    have e2 : M 0 0 * M 0 2 = 0 := by linarith
    exact (mul_eq_zero.mp e2).resolve_left hm00
  have m11 : M 1 1 * M 1 1 = 1 := by
    have e := oc 1 1
    simp only [Matrix.mul_apply, Fin.sum_univ_three, Matrix.transpose_apply] at e
    rw [h01, h21, Matrix.one_apply_eq] at e
    linarith
  have h12 : M 1 2 = 0 := by
    have e := rc 1 1
    simp only [Matrix.mul_apply, Fin.sum_univ_three, Matrix.transpose_apply] at e
    rw [h10, Matrix.one_apply_eq] at e
    have e2 : M 1 2 * M 1 2 = 0 := by nlinarith [m11]
    exact mul_self_eq_zero.mp e2
  have m22 : M 2 2 * M 2 2 = 1 := by
    have e := oc 2 2
    simp only [Matrix.mul_apply, Fin.sum_univ_three, Matrix.transpose_apply] at e
    rw [h02, h12, Matrix.one_apply_eq] at e
    linarith
  have hdpm : ∀ i : Fin 3, M i i = 1 ∨ M i i = -1 := by
    intro i; fin_cases i
    · exact mul_self_eq_one_iff.mp m00
    · exact mul_self_eq_one_iff.mp m11
    · exact mul_self_eq_one_iff.mp m22
  have hMdiag : M = Matrix.diagonal (fun i => M i i) := by
    ext i j
    by_cases hij : i = j
    · subst hij; rw [Matrix.diagonal_apply_eq]
    · rw [Matrix.diagonal_apply_ne _ hij]
      fin_cases i <;> fin_cases j
      · exact absurd rfl hij
      · exact h01
      · exact h02
      · exact h10
      · exact absurd rfl hij
      · exact h12
      · exact h20
      · exact h21
      · exact absurd rfl hij
  have hMM1 : M * M = 1 := by
    rw [hMdiag, Matrix.diagonal_mul_diagonal]
    have h1 : (fun i => (fun i => M i i) i * (fun i => M i i) i) =
        fun _ : Fin 3 => (1 : ℚ) := by
      funext i
      simp only []
      fin_cases i
      · exact m00
      · exact m11
      · exact m22
    rw [h1, Matrix.diagonal_one]
  have hQM : Q' * M = Q := by
    rw [hM, ← mul_assoc, hQ'Q't, one_mul]
  have hQ'eq : Q' = Q * M := by
    calc Q' = Q' * (M * M) := by rw [hMM1, mul_one]
    _ = (Q' * M) * M := by rw [← mul_assoc]
    _ = Q * M := by rw [hQM]
  exact ⟨fun i => M i i, hdpm, by rw [← hMdiag, hMU], by rw [← hMdiag]; exact hQ'eq⟩

/-! ### Bridging `KRT_from_P` to `krtCore` -/

theorem oracle_orth {Q : Mat3} (hQ : Qᵀ * Q = 1) : (flipM Qᵀ)ᵀ * flipM Qᵀ = 1 := by
  rw [flipM_transpose, Matrix.transpose_transpose, flipM_mul, orth_comm hQ, flipM_one]

theorem oracle_prod {A Q U : Mat3} (hQU : Q * U = flipM Aᵀ) :
    flipM Uᵀ * flipM Qᵀ = A := by
  rw [flipM_mul, ← Matrix.transpose_mul, hQU, flipM_transpose,
    Matrix.transpose_transpose, flipM_flipM]

theorem det_flipM (M : Mat3) : (flipM M).det = M.det := by
  rw [Matrix.det_fin_three, Matrix.det_fin_three]
  simp only [flipM_apply, show rev3 0 = 2 from rfl, show rev3 1 = 1 from rfl,
    show rev3 2 = 0 from rfl]
  ring

theorem negDvec_pm (i : Fin 3) : negDvec i = 1 ∨ negDvec i = -1 := by
  unfold negDvec; split_ifs <;> norm_num

/-- With a nonsingular leading block, `KRT_from_P` computes the same
triple as `krtCore` fed with the unfixed factors `flipM Uᵀ`, `flipM Qᵀ`:
the internal sign fix of `rf_rq` is one of the `±1` twists the pipeline
is invariant under. -/
theorem KRT_eq_core {P : Mat34} {Q U : Mat3}
    (hqr : isQR (flipM (leading P)ᵀ) Q U) (hH : (leading P).det ≠ 0) :
    KRT_from_P P Q U = krtCore (flipM Uᵀ) (flipM Qᵀ) (leading P) (col3 P) := by
  obtain ⟨hQ, hU, hQU⟩ := hqr
  have hq0 := oracle_orth hQ
  have hprod := oracle_prod hQU
  have hqdet : (flipM Qᵀ).det ≠ 0 := det_ne_zero_of_orth hq0
  have hrdet : (flipM Uᵀ).det ≠ 0 := by
    intro h0
    apply hH
    rw [← hprod, Matrix.det_mul, h0, zero_mul]
  have hrdiag := diag_ne_of_upperTri_det (upperTri_flip_transpose hU) hrdet
  show krtCore (rf_rq Q U).1 (rf_rq Q U).2 (leading P) (col3 P) = _
  rw [rf_rq_eq]
  split_ifs with hdet
  · show krtCore (flipM Uᵀ * negD) (negD * flipM Qᵀ) (leading P) (col3 P) = _
    exact krtCore_twist _ _ _ _ negDvec negDvec_pm hrdiag hqdet
  · rfl

/-- The output of the pipeline does not depend on which valid complete
QR factorization the oracle returns. -/
theorem KRT_oracle_irrelevant {P : Mat34} {Q U Q' U' : Mat3}
    (hqr : isQR (flipM (leading P)ᵀ) Q U) (hqr' : isQR (flipM (leading P)ᵀ) Q' U')
    (hH : (leading P).det ≠ 0) :
    KRT_from_P P Q' U' = KRT_from_P P Q U := by
  rw [KRT_eq_core hqr hH, KRT_eq_core hqr' hH]
  have hAdet : (flipM (leading P)ᵀ).det ≠ 0 := by
    rw [det_flipM, Matrix.det_transpose]
    exact hH
  obtain ⟨d, hd, hU'e, hQ'e⟩ := qr_twist hAdet hqr hqr'
  have hr' : flipM U'ᵀ = flipM Uᵀ * Matrix.diagonal (fun i => d (rev3 i)) := by
    rw [hU'e, Matrix.transpose_mul, Matrix.diagonal_transpose, ← flipM_mul,
      flipM_diagonal]
  have hq' : flipM Q'ᵀ = Matrix.diagonal (fun i => d (rev3 i)) * flipM Qᵀ := by
    rw [hQ'e, Matrix.transpose_mul, Matrix.diagonal_transpose, ← flipM_mul,
      flipM_diagonal]
  obtain ⟨hQ, hU, hQU⟩ := hqr
  have hq0 := oracle_orth hQ
  have hprod := oracle_prod hQU
  have hqdet : (flipM Qᵀ).det ≠ 0 := det_ne_zero_of_orth hq0
  have hrdet : (flipM Uᵀ).det ≠ 0 := by
    intro h0
    apply hH
    rw [← hprod, Matrix.det_mul, h0, zero_mul]
  have hrdiag := diag_ne_of_upperTri_det (upperTri_flip_transpose hU) hrdet
  rw [hr', hq']
  exact krtCore_twist _ _ _ _ _ (fun i => hd (rev3 i)) hrdiag hqdet

/-! ### Scale invariance of the pipeline -/

theorem leading_smul (lam : ℚ) (P : Mat34) : leading (lam • P) = lam • leading P := by
  ext i j; rfl

theorem col3_smul (lam : ℚ) (P : Mat34) : col3 (lam • P) = lam • col3 P := by
  funext i; rfl

theorem lstsqSolve_smul {lam : ℚ} (hlam : lam ≠ 0) (A : Mat3) (b : Vec3) :
    lstsqSolve (lam • A) (lam • b) = lstsqSolve A b := by
  funext i
  rw [lstsqSolve, lstsqSolve, Pi.smul_apply, Pi.smul_apply, smul_eq_mul, smul_eq_mul]
  have hupd : (lam • A).updateColumn i (lam • b) = lam • A.updateColumn i b := by
    ext i' j'
    simp only [Matrix.updateColumn_apply, Matrix.smul_apply, Pi.smul_apply]
    split_ifs <;> rfl
  rw [hupd, Matrix.det_smul, Matrix.det_smul, Fintype.card_fin]
  calc (lam ^ 3 * A.det)⁻¹ * (lam ^ 3 * (A.updateColumn i b).det)
      = ((lam ^ 3)⁻¹ * lam ^ 3) * ((A.det)⁻¹ * (A.updateColumn i b).det) := by
        rw [mul_inv]; ring
    _ = (A.det)⁻¹ * (A.updateColumn i b).det := by
        rw [inv_mul_cancel₀ (pow_ne_zero 3 hlam), one_mul]

theorem krtCore_smul (r q H : Mat3) (p4 : Vec3) {lam : ℚ} (hlam : lam ≠ 0) :
    krtCore (lam • r) q (lam • H) (lam • p4) = krtCore r q H p4 := by
  have hK1 : normalizeK (lam • r) = normalizeK r := by
    ext i j
    rw [normalizeK_apply, normalizeK_apply, Matrix.smul_apply, Matrix.smul_apply,
      smul_eq_mul, smul_eq_mul]
    calc (lam * r 2 2)⁻¹ * (lam * r i j)
        = (lam⁻¹ * lam) * ((r 2 2)⁻¹ * r i j) := by rw [mul_inv]; ring
      _ = (r 2 2)⁻¹ * r i j := by rw [inv_mul_cancel₀ hlam, one_mul]
  have hC : lstsqSolve (-(lam • H)) (lam • p4) = lstsqSolve (-H) p4 := by
    rw [show -(lam • H) = lam • (-H) from (smul_neg lam H).symm, lstsqSolve_smul hlam]
  refine Prod.ext ?_ (Prod.ext ?_ ?_)
  · rw [krtCore_K, krtCore_K, hK1]
  · rw [krtCore_R, krtCore_R, hK1]
  · rw [krtCore_T, krtCore_T, krtCore_R, krtCore_R, hK1, hC]

/-! ### The augmented matrix `[R | T]` -/

theorem mul_augment (K R : Mat3) (T : Vec3) :
    K * augment R T = augment (K * R) (K.mulVec T) := by
  ext i j
  fin_cases j <;> rfl

theorem smul_augment (c : ℚ) (R : Mat3) (T : Vec3) :
    c • augment R T = augment (c • R) (c • T) := by
  ext i j
  simp only [Matrix.smul_apply, augment, Matrix.of_apply]
  split_ifs <;> rfl

theorem leading_augment (R : Mat3) (T : Vec3) : leading (augment R T) = R := by
  ext i j
  fin_cases j <;> rfl

theorem col3_augment (R : Mat3) (T : Vec3) : col3 (augment R T) = T := by
  funext i; rfl

/-- Bundle of facts available once the QR-oracle contract holds and the
leading block is nonsingular. -/
theorem core_facts {P : Mat34} {Q U : Mat3}
    (hqr : isQR (flipM (leading P)ᵀ) Q U) (hH : (leading P).det ≠ 0) :
    upperTri (flipM Uᵀ) ∧ flipM Uᵀ * flipM Qᵀ = leading P ∧
    (flipM Qᵀ)ᵀ * flipM Qᵀ = 1 ∧ (∀ i, flipM Uᵀ i i ≠ 0) ∧
    (∀ i, normalizeK (flipM Uᵀ) i i ≠ 0) ∧ (flipM Qᵀ).det ≠ 0 := by
  obtain ⟨hQ, hU, hQU⟩ := hqr
  have htri := upperTri_flip_transpose hU
  have hprod := oracle_prod hQU
  have hq0 := oracle_orth hQ
  have hqdet : (flipM Qᵀ).det ≠ 0 := det_ne_zero_of_orth hq0
  have hrdet : (flipM Uᵀ).det ≠ 0 := by
    intro h0
    apply hH
    rw [← hprod, Matrix.det_mul, h0, zero_mul]
  have hrdiag := diag_ne_of_upperTri_det htri hrdet
  have hK1diag : ∀ i, normalizeK (flipM Uᵀ) i i ≠ 0 := fun i => by
    rw [normalizeK_apply]
    exact mul_ne_zero (inv_ne_zero (hrdiag 2)) (hrdiag i)
  exact ⟨htri, hprod, hq0, hrdiag, hK1diag, hqdet⟩

theorem leading_Ptest : leading Ptest = Htest := by decide

theorem isQR_test : isQR (flipM (leading Ptest)ᵀ) 1 Utest := by
  refine ⟨?_, ?_, ?_⟩
  · rw [Matrix.transpose_one, Matrix.one_mul]
  · decide
  · rw [Matrix.one_mul]; decide

theorem rf_rq_test : rf_rq 1 Utest = (Htest, 1) := by
  have h1 : flipM (1 : Mat3)ᵀ = 1 := by rw [Matrix.transpose_one, flipM_one]
  rw [rf_rq_eq, h1, Matrix.det_one, if_neg (by norm_num)]
  refine Prod.ext ?_ rfl
  decide

theorem rf_rq_test1 : (rf_rq 1 Utest).1 = Htest := by rw [rf_rq_test]

theorem rf_rq_test2 : (rf_rq 1 Utest).2 = 1 := by rw [rf_rq_test]

theorem normalizeK_test : normalizeK Htest = K1test := by
  ext i j
  fin_cases i <;> fin_cases j <;>
    norm_num [normalizeK_apply, Htest, K1test, Matrix.vecHead, Matrix.vecTail]

theorem signMat_test : signMat K1test = SGtest := by
  ext i j
  fin_cases i <;> fin_cases j <;>
    norm_num [signMat, Matrix.diagonal_apply, K1test, SGtest, numpySign,
      Matrix.vecHead, Matrix.vecTail, Fin.ext_iff]

theorem K_test : K1test * SGtest = Ktest := by
  ext i j
  fin_cases i <;> fin_cases j <;>
    norm_num [Matrix.mul_apply, Fin.sum_univ_three, K1test, SGtest, Ktest,
      Matrix.vecHead, Matrix.vecTail]

theorem R_test : fixDet SGtest = Rtest := by
  have hdet : SGtest.det = -1 := by
    norm_num [Matrix.det_fin_three, SGtest, Matrix.vecHead, Matrix.vecTail]
  unfold fixDet
  rw [hdet, if_pos (by norm_num)]
  ext i j
  fin_cases i <;> fin_cases j <;>
    norm_num [SGtest, Rtest, Matrix.vecHead, Matrix.vecTail]

theorem col3_test : col3 Ptest = ![282, 417, -18] := by decide

theorem C_test : lstsqSolve (-Htest) (col3 Ptest) = Ctest := by
  rw [col3_test]
  funext i
  rw [lstsqSolve, Pi.smul_apply, smul_eq_mul]
  fin_cases i <;>
    norm_num [Matrix.det_fin_three, Matrix.updateColumn_apply, Matrix.neg_apply,
      Htest, Ctest, Matrix.vecHead, Matrix.vecTail, Fin.ext_iff]

theorem T_test : -(Rtest.mulVec Ctest) = Ttest := by
  funext i
  fin_cases i <;>
    norm_num [Matrix.mulVec, Matrix.dotProduct, Fin.sum_univ_three, Rtest, Ctest,
      Ttest, Matrix.vecHead, Matrix.vecTail, Pi.neg_apply]

/-- Full concrete run of the pipeline on `test2`'s input, with the
explicit QR pair `(1, Utest)`. -/
theorem KRT_test_eval : KRT_from_P Ptest 1 Utest = (Ktest, Rtest, Ttest) := by
  have h0 : KRT_from_P Ptest 1 Utest =
      krtCore (rf_rq 1 Utest).1 (rf_rq 1 Utest).2 (leading Ptest) (col3 Ptest) := rfl
  rw [h0, rf_rq_test1, rf_rq_test2, leading_Ptest]
  refine Prod.ext ?_ (Prod.ext ?_ ?_)
  · rw [krtCore_K, normalizeK_test, signMat_test, K_test]
  · rw [krtCore_R, normalizeK_test, signMat_test, mul_one, R_test]
  · rw [krtCore_T, krtCore_R, normalizeK_test, signMat_test, mul_one, R_test,
      C_test, T_test]

theorem det_Htest : Htest.det = 6 := by
  norm_num [Matrix.det_fin_three, Htest, Matrix.vecHead, Matrix.vecTail]

theorem Ktest_mul_Rtest : Ktest * Rtest = Htest := by
  ext i j
  fin_cases i <;> fin_cases j <;>
    norm_num [Matrix.mul_apply, Fin.sum_univ_three, Ktest, Rtest, Htest,
      Matrix.vecHead, Matrix.vecTail]

theorem Ktest_mulVec_Ttest : Ktest.mulVec Ttest = ![282, 417, -18] := by
  funext i
  fin_cases i <;>
    norm_num [Matrix.mulVec, Matrix.dotProduct, Fin.sum_univ_three, Ktest, Ttest,
      Matrix.vecHead, Matrix.vecTail]

theorem build_Ptest : Ktest * augment Rtest Ttest = Ptest := by
  rw [mul_augment, Ktest_mul_Rtest, Ktest_mulVec_Ttest]
  decide

theorem leading_Psing : leading Psing = Hsing := by decide

theorem isQR_sing : isQR (flipM (leading Psing)ᵀ) 1 Usg := by
  refine ⟨?_, ?_, ?_⟩
  · rw [Matrix.transpose_one, Matrix.one_mul]
  · decide
  · rw [Matrix.one_mul]; decide

theorem rf_rq_sing : rf_rq 1 Usg = (Hsing, 1) := by
  have h1 : flipM (1 : Mat3)ᵀ = 1 := by rw [Matrix.transpose_one, flipM_one]
  rw [rf_rq_eq, h1, Matrix.det_one, if_neg (by norm_num)]
  refine Prod.ext ?_ rfl
  decide

theorem rf_rq_sing1 : (rf_rq 1 Usg).1 = Hsing := by rw [rf_rq_sing]

theorem rf_rq_sing2 : (rf_rq 1 Usg).2 = 1 := by rw [rf_rq_sing]

theorem normalizeK_sing : normalizeK Hsing = Hsing := by
  ext i j
  fin_cases i <;> fin_cases j <;>
    norm_num [normalizeK_apply, Hsing, Matrix.vecHead, Matrix.vecTail]

theorem signMat_sing : signMat Hsing = Hsing := by
  ext i j
  fin_cases i <;> fin_cases j <;>
    norm_num [signMat, Matrix.diagonal_apply, Hsing, numpySign,
      Matrix.vecHead, Matrix.vecTail, Fin.ext_iff]

theorem Hsing_mul_Hsing : Hsing * Hsing = Hsing := by
  ext i j
  fin_cases i <;> fin_cases j <;>
    norm_num [Matrix.mul_apply, Fin.sum_univ_three, Hsing,
      Matrix.vecHead, Matrix.vecTail]

theorem det_Hsing : Hsing.det = 0 := by
  norm_num [Matrix.det_fin_three, Hsing, Matrix.vecHead, Matrix.vecTail]

theorem fixDet_Hsing : fixDet Hsing = Hsing := by
  unfold fixDet
  rw [det_Hsing, if_neg (by norm_num)]

theorem col3_Psing : col3 Psing = 0 := by decide

theorem lstsq_sing : lstsqSolve (-Hsing) 0 = 0 := by
  funext i
  rw [lstsqSolve, Pi.smul_apply, smul_eq_mul]
  fin_cases i <;>
    norm_num [Matrix.det_fin_three, Matrix.updateColumn_apply, Matrix.neg_apply,
      Hsing, Matrix.vecHead, Matrix.vecTail, Fin.ext_iff, Pi.zero_apply]

/-- Full concrete run of the pipeline on the singular input `Psing`:
the code returns an ordinary triple rather than failing. -/
theorem KRT_sing_eval : KRT_from_P Psing 1 Usg = (Hsing, Hsing, 0) := by
  have h0 : KRT_from_P Psing 1 Usg =
      krtCore (rf_rq 1 Usg).1 (rf_rq 1 Usg).2 (leading Psing) (col3 Psing) := rfl
  rw [h0, rf_rq_sing1, rf_rq_sing2, leading_Psing, col3_Psing]
  refine Prod.ext ?_ (Prod.ext ?_ ?_)
  · rw [krtCore_K, normalizeK_sing, signMat_sing, Hsing_mul_Hsing]
  · rw [krtCore_R, normalizeK_sing, signMat_sing, mul_one, fixDet_Hsing]
  · rw [krtCore_T, krtCore_R, normalizeK_sing, signMat_sing, mul_one, fixDet_Hsing,
      lstsq_sing, Matrix.mulVec_zero, neg_zero]

theorem isQR_c6 : isQR (flipM Kc6ᵀ) 1 Uc6 := by
  refine ⟨?_, ?_, ?_⟩
  · rw [Matrix.transpose_one, Matrix.one_mul]
  · decide
  · rw [Matrix.one_mul]; decide

theorem rf_rq_c6 : rf_rq 1 Uc6 = (Kc6, 1) := by
  have h1 : flipM (1 : Mat3)ᵀ = 1 := by rw [Matrix.transpose_one, flipM_one]
  rw [rf_rq_eq, h1, Matrix.det_one, if_neg (by norm_num)]
  refine Prod.ext ?_ rfl
  decide

theorem normalizeK_c6 : normalizeK Kc6 = Kc6 := by
  ext i j
  fin_cases i <;> fin_cases j <;>
    norm_num [normalizeK_apply, Kc6, Matrix.vecHead, Matrix.vecTail]

theorem signMat_c6 : signMat Kc6 = SGc6 := by
  ext i j
  fin_cases i <;> fin_cases j <;>
    norm_num [signMat, Matrix.diagonal_apply, Kc6, SGc6, numpySign,
      Matrix.vecHead, Matrix.vecTail, Fin.ext_iff]

theorem Kc6_mul_SGc6 : Kc6 * SGc6 = SGc6 := by
  ext i j
  fin_cases i <;> fin_cases j <;>
    norm_num [Matrix.mul_apply, Fin.sum_univ_three, Kc6, SGc6,
      Matrix.vecHead, Matrix.vecTail]

theorem SGc6_mul_SGc6 : SGc6 * SGc6 = SGc6 := by
  ext i j
  fin_cases i <;> fin_cases j <;>
    norm_num [Matrix.mul_apply, Fin.sum_univ_three, SGc6,
      Matrix.vecHead, Matrix.vecTail]

/-! ### Claim theorems -/

/-- C1: for every 3x4 matrix constructed as `K0 * [R0 | T0]` with `K0`
upper triangular with strictly positive diagonal, `R0` a proper rotation
and `T0` arbitrary (such a matrix has rank 3), `KRT_from_P` returns
`(K, R, T)` with `K * [R | T]` equal to the input up to a single nonzero
global scale factor; over exact arithmetic the 1e-6 relative tolerance
of the claim becomes exact equality. -/
theorem C1_reconstruction (K0 R0 : Mat3) (T0 : Vec3) (Q U : Mat3)
    (hK0tri : upperTri K0) (hK0pos : ∀ i, 0 < K0 i i)
    (hR0orth : R0ᵀ * R0 = 1) (hR0det : R0.det = 1)
    (hqr : isQR (flipM (leading (K0 * augment R0 T0))ᵀ) Q U) :
    ∃ s : ℚ, s ≠ 0 ∧
      (KRT_from_P (K0 * augment R0 T0) Q U).1 *
        augment (KRT_from_P (K0 * augment R0 T0) Q U).2.1
          (KRT_from_P (K0 * augment R0 T0) Q U).2.2 =
      s • (K0 * augment R0 T0) := by
  have hP : K0 * augment R0 T0 = augment (K0 * R0) (K0.mulVec T0) :=
    mul_augment K0 R0 T0
  have hlead : leading (K0 * augment R0 T0) = K0 * R0 := by
    rw [hP, leading_augment]
  have hcol : col3 (K0 * augment R0 T0) = K0.mulVec T0 := by
    rw [hP, col3_augment]
  have hdetK0 : K0.det ≠ 0 := by
    rw [det_of_upperTri hK0tri]
    exact (mul_pos (mul_pos (hK0pos 0) (hK0pos 1)) (hK0pos 2)).ne'
  have hH : (leading (K0 * augment R0 T0)).det ≠ 0 := by
    rw [hlead, Matrix.det_mul, hR0det, mul_one]
    exact hdetK0
  obtain ⟨htri, hprod, hq0, hrdiag, hK1diag, hqdet⟩ := core_facts hqr hH
  rw [KRT_eq_core hqr hH, krtCore_K, krtCore_T, krtCore_R]
  obtain ⟨s, hs, hKR⟩ := canon_prod hK1diag (hrdiag 2) hprod
  refine ⟨s, hs, ?_⟩
  rw [mul_augment, hKR]
  have hKT : (normalizeK (flipM Uᵀ) * signMat (normalizeK (flipM Uᵀ))).mulVec
      (-(fixDet (signMat (normalizeK (flipM Uᵀ)) * flipM Qᵀ)).mulVec
        (lstsqSolve (-(leading (K0 * augment R0 T0)))
          (col3 (K0 * augment R0 T0)))) =
      s • col3 (K0 * augment R0 T0) := by
    rw [Matrix.mulVec_neg, Matrix.mulVec_mulVec, hKR, Matrix.smul_mulVec_assoc,
      solveC_eq hH, smul_neg, neg_neg]
  rw [hKT, hlead, hcol, hP, smul_augment]

/-- C1 witness: the construction data of the source's `test2`
(`K0 = Ktest`, `R0 = Rtest`, `T0 = Ttest`, building `Ptest`), with the
explicit QR pair `(1, Utest)`. -/
theorem C1_reconstruction_witness :
    upperTri Ktest ∧ (∀ i, 0 < Ktest i i) ∧ Rtestᵀ * Rtest = 1 ∧ Rtest.det = 1 ∧
    isQR (flipM (leading (Ktest * augment Rtest Ttest))ᵀ) 1 Utest ∧
    ∃ s : ℚ, s ≠ 0 ∧
      (KRT_from_P (Ktest * augment Rtest Ttest) 1 Utest).1 *
        augment (KRT_from_P (Ktest * augment Rtest Ttest) 1 Utest).2.1
          (KRT_from_P (Ktest * augment Rtest Ttest) 1 Utest).2.2 =
      s • (Ktest * augment Rtest Ttest) := by
  have h1 : upperTri Ktest := by decide
  have h2 : ∀ i, 0 < Ktest i i := by
    intro i
    fin_cases i <;> norm_num [Ktest, Matrix.vecHead, Matrix.vecTail]
  have h3 : Rtestᵀ * Rtest = 1 := by
    ext i j
    fin_cases i <;> fin_cases j <;>
      norm_num [Matrix.mul_apply, Fin.sum_univ_three, Matrix.transpose_apply,
        Rtest, Matrix.one_apply, Matrix.vecHead, Matrix.vecTail, Fin.ext_iff]
  have h4 : Rtest.det = 1 := by
    norm_num [Matrix.det_fin_three, Rtest, Matrix.vecHead, Matrix.vecTail]
  have h5 : isQR (flipM (leading (Ktest * augment Rtest Ttest))ᵀ) 1 Utest := by
    rw [build_Ptest]
    exact isQR_test
  exact ⟨h1, h2, h3, h4, h5, C1_reconstruction Ktest Rtest Ttest 1 Utest h1 h2 h3 h4 h5⟩

/-- C2: for every 3x4 input with nonsingular leading block, the returned
triple is in canonical form: `det R > 0`, `K[0,0] > 0`, `K[1,1] > 0` and
`K[2,2] = 1` (exactly). -/
theorem C2_canonical_form (P : Mat34) (Q U : Mat3)
    (hH : (leading P).det ≠ 0) (hqr : isQR (flipM (leading P)ᵀ) Q U) :
    0 < (KRT_from_P P Q U).2.1.det ∧
    0 < (KRT_from_P P Q U).1 0 0 ∧ 0 < (KRT_from_P P Q U).1 1 1 ∧
    (KRT_from_P P Q U).1 2 2 = 1 := by
  obtain ⟨htri, hprod, hq0, hrdiag, hK1diag, hqdet⟩ := core_facts hqr hH
  rw [KRT_eq_core hqr hH, krtCore_K, krtCore_R]
  refine ⟨?_, ?_, ?_, ?_⟩
  · rw [fixDet_det_one (sgq_orth hK1diag hq0)]
    norm_num
  · exact canonK_diag_pos hK1diag 0
  · exact canonK_diag_pos hK1diag 1
  · exact canonK_22 (hrdiag 2)

/-- C2 witness: the concrete input `Ptest` with QR pair `(1, Utest)`. -/
theorem C2_canonical_form_witness :
    (leading Ptest).det ≠ 0 ∧
    (0 < (KRT_from_P Ptest 1 Utest).2.1.det ∧
     0 < (KRT_from_P Ptest 1 Utest).1 0 0 ∧ 0 < (KRT_from_P Ptest 1 Utest).1 1 1 ∧
     (KRT_from_P Ptest 1 Utest).1 2 2 = 1) := by
  have hH : (leading Ptest).det ≠ 0 := by
    rw [leading_Ptest, det_Htest]; norm_num
  exact ⟨hH, C2_canonical_form Ptest 1 Utest hH isQR_test⟩

/-- C3: for every nonsingular 3x3 matrix `A`, `rf_rq` (fed a valid QR
pair for the reversed transpose of `A`) returns `(R, Q)` with `R` upper
triangular, `R * Q = A` and `Q * Qᵀ = 1`; over exact arithmetic the
1e-9 tolerances of the claim become exact equalities. -/
theorem C3_rq_roundtrip (A Q U : Mat3) (hA : A.det ≠ 0)
    (hqr : isQR (flipM Aᵀ) Q U) :
    upperTri (rf_rq Q U).1 ∧ (rf_rq Q U).1 * (rf_rq Q U).2 = A ∧
    (rf_rq Q U).2 * (rf_rq Q U).2ᵀ = 1 := by
  obtain ⟨h1, h2, h3, _⟩ := rf_rq_spec hqr
  exact ⟨h1, h2, orth_comm h3⟩

/-- C3 witness: `A = Htest` with QR pair `(1, Utest)`. -/
theorem C3_rq_roundtrip_witness :
    Htest.det ≠ 0 ∧ isQR (flipM Htestᵀ) 1 Utest ∧
    (upperTri (rf_rq 1 Utest).1 ∧ (rf_rq 1 Utest).1 * (rf_rq 1 Utest).2 = Htest ∧
     (rf_rq 1 Utest).2 * (rf_rq 1 Utest).2ᵀ = 1) := by
  have hA : Htest.det ≠ 0 := by rw [det_Htest]; norm_num
  have hqr : isQR (flipM Htestᵀ) 1 Utest := by
    have h := isQR_test
    rwa [leading_Ptest] at h
  exact ⟨hA, hqr, C3_rq_roundtrip Htest 1 Utest hA hqr⟩

/-- C4 counterexample: on the concrete input `Psing`, whose leading 3x3
block is singular (rank 2), the code does not fail: with a valid QR
pair for the block it returns the ordinary, all-finite triple
`(Hsing, Hsing, 0)`.  No `SingularMatrixError` (or any error path at
all) exists in the source. -/
theorem C4_counterexample :
    (leading Psing).det = 0 ∧ isQR (flipM (leading Psing)ᵀ) 1 Usg ∧
    KRT_from_P Psing 1 Usg = (Hsing, Hsing, 0) := by
  refine ⟨?_, isQR_sing, KRT_sing_eval⟩
  rw [leading_Psing, det_Hsing]

/-- C4 amended: on a 3x4 input with singular leading block the
decomposition still returns a triple (there is no error path); whenever
the triangular factor's corner entry is nonzero the returned `K` is a
well-formed upper-triangular matrix with `K[2,2] = 1`. -/
theorem C4_no_failure_on_singular (P : Mat34) (Q U : Mat3)
    (hqr : isQR (flipM (leading P)ᵀ) Q U)
    (hsing : (leading P).det = 0) (hr22 : (rf_rq Q U).1 2 2 ≠ 0) :
    upperTri (KRT_from_P P Q U).1 ∧ (KRT_from_P P Q U).1 2 2 = 1 := by
  have h0 : KRT_from_P P Q U =
      krtCore (rf_rq Q U).1 (rf_rq Q U).2 (leading P) (col3 P) := rfl
  have htri : upperTri (rf_rq Q U).1 := (rf_rq_spec hqr).1
  rw [h0, krtCore_K]
  exact ⟨canonK_upperTri htri, canonK_22 hr22⟩

/-- C4 amended witness: the singular input `Psing`. -/
theorem C4_no_failure_on_singular_witness :
    (leading Psing).det = 0 ∧ (rf_rq 1 Usg).1 2 2 ≠ 0 ∧
    (upperTri (KRT_from_P Psing 1 Usg).1 ∧ (KRT_from_P Psing 1 Usg).1 2 2 = 1) := by
  have hs : (leading Psing).det = 0 := by rw [leading_Psing, det_Hsing]
  have hr : (rf_rq 1 Usg).1 2 2 ≠ 0 := by rw [rf_rq_sing1]; decide
  exact ⟨hs, hr, C4_no_failure_on_singular Psing 1 Usg isQR_sing hs hr⟩

/-- C5 counterexample: the scale-normalization step is applied with no
guard whatsoever: at a `K` with `K[2,2] = 0` it does not fail (there is
no `DegenerateScaleError` in the source) and simply divides; in the
exact-arithmetic model the field convention for division by zero maps
`K` to the zero matrix (numpy would silently produce non-finite
entries). -/
theorem C5_counterexample : Kzero 2 2 = 0 ∧ normalizeK Kzero = 0 := by
  have h : Kzero 2 2 = 0 := by decide
  refine ⟨h, ?_⟩
  rw [normalizeK, h]
  simp

/-- C5 amended: the step divides `K` entrywise by `K[2,2]`
unconditionally; when `K[2,2]` is nonzero the result has bottom-right
entry exactly 1 and multiplying back by `K[2,2]` recovers `K`. -/
theorem C5_normalize_when_nonzero (K : Mat3) (h : K 2 2 ≠ 0) :
    normalizeK K 2 2 = 1 ∧ (K 2 2) • normalizeK K = K := by
  refine ⟨normalizeK_22 h, ?_⟩
  rw [normalizeK, smul_smul, mul_inv_cancel₀ h, one_smul]

/-- C5 amended witness: the intrinsic matrix of `test2`. -/
theorem C5_normalize_when_nonzero_witness :
    Ktest 2 2 ≠ 0 ∧
    (normalizeK Ktest 2 2 = 1 ∧ (Ktest 2 2) • normalizeK Ktest = Ktest) := by
  have h : Ktest 2 2 ≠ 0 := by decide
  exact ⟨h, C5_normalize_when_nonzero Ktest h⟩

/-- C6 counterexample: the sign-canonicalization step uses `numpy.sign`
with `sign(0) = 0`, not `+1`; on the reachable input `(Kc6, 1)` (it is
exactly what `rf_rq` plus scale normalization hand to the step when
decomposing the singular block `Kc6` with the valid QR pair `(1, Uc6)`)
the step changes the product `K*R` and leaves a non-positive diagonal
entry. -/
theorem C6_counterexample :
    isQR (flipM Kc6ᵀ) 1 Uc6 ∧
    normalizeK (rf_rq 1 Uc6).1 = Kc6 ∧ (rf_rq 1 Uc6).2 = 1 ∧
    Kc6 1 1 = 0 ∧ numpySign 0 = 0 ∧
    (signFix Kc6 1).1 * (signFix Kc6 1).2 ≠ Kc6 * 1 ∧
    ¬ 0 < (signFix Kc6 1).1 1 1 := by
  have hrf1 : (rf_rq 1 Uc6).1 = Kc6 := by rw [rf_rq_c6]
  have hrf2 : (rf_rq 1 Uc6).2 = 1 := by rw [rf_rq_c6]
  have hfix1 : (signFix Kc6 (1 : Mat3)).1 = SGc6 := by
    show Kc6 * signMat Kc6 = SGc6
    rw [signMat_c6, Kc6_mul_SGc6]
  have hfix2 : (signFix Kc6 (1 : Mat3)).2 = SGc6 := by
    show signMat Kc6 * 1 = SGc6
    rw [signMat_c6, mul_one]
  refine ⟨isQR_c6, by rw [hrf1, normalizeK_c6], hrf2, by decide, numpySign_zero,
    ?_, ?_⟩
  · rw [hfix1, hfix2, SGc6_mul_SGc6, mul_one]
    decide
  · rw [hfix1]
    norm_num [SGc6, Matrix.vecHead, Matrix.vecTail]

/-- C6 amended: when every diagonal entry of `K` is nonzero the step
`K ← K*sg, R ← sg*R` leaves the product `K*R` unchanged and makes every
diagonal entry of `K` strictly positive. -/
theorem C6_signfix_nonzero_diag (K R : Mat3) (hd : ∀ i, K i i ≠ 0) :
    (signFix K R).1 * (signFix K R).2 = K * R ∧
    0 < (signFix K R).1 0 0 ∧ 0 < (signFix K R).1 1 1 ∧
    0 < (signFix K R).1 2 2 := by
  have hprod : (K * signMat K) * (signMat K * R) = K * R := by
    rw [mul_assoc, ← mul_assoc (signMat K), signMat_mul_self hd, one_mul]
  have hpos : ∀ i, 0 < (K * signMat K) i i := fun i => by
    rw [signMat, Matrix.mul_diagonal]
    exact mul_numpySign_pos (hd i)
  exact ⟨hprod, hpos 0, hpos 1, hpos 2⟩

/-- C6 amended witness: the `test2` intrinsic matrix and rotation. -/
theorem C6_signfix_nonzero_diag_witness :
    (∀ i, Ktest i i ≠ 0) ∧
    ((signFix Ktest Rtest).1 * (signFix Ktest Rtest).2 = Ktest * Rtest ∧
     0 < (signFix Ktest Rtest).1 0 0 ∧ 0 < (signFix Ktest Rtest).1 1 1 ∧
     0 < (signFix Ktest Rtest).1 2 2) := by
  have hd : ∀ i, Ktest i i ≠ 0 := by decide
  exact ⟨hd, C6_signfix_nonzero_diag Ktest Rtest hd⟩

/-- C7: on every input with nonsingular leading block, the intermediate
`C` solves `H * C = -p4` exactly (the least-squares solution of a
nonsingular square system), and the returned translation is
`T = -R * C` computed with the final, already sign-canonicalized `R`
(the `R` produced after the `det(R) < 0` fix). -/
theorem C7_center_translation (P : Mat34) (Q U : Mat3)
    (hH : (leading P).det ≠ 0) (hqr : isQR (flipM (leading P)ᵀ) Q U) :
    (leading P).mulVec (lstsqSolve (-(leading P)) (col3 P)) = -(col3 P) ∧
    (KRT_from_P P Q U).2.2 =
      -((KRT_from_P P Q U).2.1.mulVec (lstsqSolve (-(leading P)) (col3 P))) := by
  refine ⟨solveC_eq hH (col3 P), ?_⟩
  rw [KRT_eq_core hqr hH]
  exact krtCore_T _ _ _ _

/-- C7 witness: the concrete input `Ptest` with QR pair `(1, Utest)`. -/
theorem C7_center_translation_witness :
    (leading Ptest).det ≠ 0 ∧
    ((leading Ptest).mulVec (lstsqSolve (-(leading Ptest)) (col3 Ptest)) =
        -(col3 Ptest) ∧
     (KRT_from_P Ptest 1 Utest).2.2 =
       -((KRT_from_P Ptest 1 Utest).2.1.mulVec
          (lstsqSolve (-(leading Ptest)) (col3 Ptest)))) := by
  have hH : (leading Ptest).det ≠ 0 := by rw [leading_Ptest, det_Htest]; norm_num
  exact ⟨hH, C7_center_translation Ptest 1 Utest hH isQR_test⟩

/-- C8: scale invariance: for every nonzero scalar `lam` and every input
with nonsingular leading block, decomposing `lam • P` (with any valid QR
pair for its reversed transposed block) returns exactly the same triple
as decomposing `P`. -/
theorem C8_scale_invariance (P : Mat34) (lam : ℚ) (Q U Q2 U2 : Mat3)
    (hlam : lam ≠ 0) (hH : (leading P).det ≠ 0)
    (hqr : isQR (flipM (leading P)ᵀ) Q U)
    (hqr2 : isQR (flipM (leading (lam • P))ᵀ) Q2 U2) :
    KRT_from_P (lam • P) Q2 U2 = KRT_from_P P Q U := by
  have hlead : leading (lam • P) = lam • leading P := leading_smul lam P
  have hA2 : flipM (leading (lam • P))ᵀ = lam • flipM (leading P)ᵀ := by
    rw [hlead, Matrix.transpose_smul, flipM_smul]
  have hqr2' : isQR (flipM (leading P)ᵀ) Q2 (lam⁻¹ • U2) := by
    obtain ⟨hq2, hu2, hqu2⟩ := hqr2
    refine ⟨hq2, ?_, ?_⟩
    · intro i j hij
      rw [Matrix.smul_apply, hu2 i j hij, smul_zero]
    · rw [Matrix.mul_smul, hqu2, hA2, smul_smul, inv_mul_cancel₀ hlam, one_smul]
  have hHlam : (leading (lam • P)).det ≠ 0 := by
    rw [hlead, Matrix.det_smul, Fintype.card_fin]
    exact mul_ne_zero (pow_ne_zero 3 hlam) hH
  rw [KRT_eq_core hqr2 hHlam]
  have hU2 : flipM U2ᵀ = lam • flipM (lam⁻¹ • U2)ᵀ := by
    rw [Matrix.transpose_smul, flipM_smul, smul_smul, mul_inv_cancel₀ hlam, one_smul]
  rw [hU2, hlead, col3_smul, krtCore_smul _ _ _ _ hlam, ← KRT_eq_core hqr2' hH]
  exact KRT_oracle_irrelevant hqr hqr2' hH

/-- C8 witness: `Ptest` scaled by `2`, with QR pairs `(1, Utest)` and
`(1, 2 • Utest)`. -/
theorem C8_scale_invariance_witness :
    (2 : ℚ) ≠ 0 ∧ (leading Ptest).det ≠ 0 ∧
    isQR (flipM (leading ((2 : ℚ) • Ptest))ᵀ) 1 ((2 : ℚ) • Utest) ∧
    KRT_from_P ((2 : ℚ) • Ptest) 1 ((2 : ℚ) • Utest) = KRT_from_P Ptest 1 Utest := by
  have h2 : (2 : ℚ) ≠ 0 := by norm_num
  have hH : (leading Ptest).det ≠ 0 := by rw [leading_Ptest, det_Htest]; norm_num
  have hflip : flipM (leading Ptest)ᵀ = Utest := by
    have h := isQR_test.2.2
    rw [Matrix.one_mul] at h
    exact h.symm
  have hqr2 : isQR (flipM (leading ((2 : ℚ) • Ptest))ᵀ) 1 ((2 : ℚ) • Utest) := by
    refine ⟨?_, ?_, ?_⟩
    · rw [Matrix.transpose_one, Matrix.one_mul]
    · intro i j hij
      have hu : upperTri Utest := by decide
      rw [Matrix.smul_apply, hu i j hij, smul_zero]
    · rw [Matrix.one_mul, leading_smul, Matrix.transpose_smul, flipM_smul, hflip]
  exact ⟨h2, hH, hqr2,
    C8_scale_invariance Ptest 2 1 Utest 1 ((2 : ℚ) • Utest) h2 hH isQR_test hqr2⟩

/-- C9: on the concrete `test2` input `Ptest`, for every valid QR pair
the decomposition returns exactly the documented `(Ktest, Rtest, Ttest)`
(exact rational arithmetic, hence well within the 1e-6 tolerance), the
returned rotation has determinant `+1`, and `Ktest * [Rtest | Ttest]`
reconstructs `Ptest` exactly. -/
theorem C9_concrete_test2 (Q U : Mat3) (hqr : isQR (flipM (leading Ptest)ᵀ) Q U) :
    KRT_from_P Ptest Q U = (Ktest, Rtest, Ttest) ∧
    Rtest.det = 1 ∧ Ktest * augment Rtest Ttest = Ptest := by
  have hH : (leading Ptest).det ≠ 0 := by rw [leading_Ptest, det_Htest]; norm_num
  refine ⟨?_, ?_, build_Ptest⟩
  · rw [KRT_oracle_irrelevant isQR_test hqr hH]
    exact KRT_test_eval
  · norm_num [Matrix.det_fin_three, Rtest, Matrix.vecHead, Matrix.vecTail]

/-- C9 witness: the explicit QR pair `(1, Utest)`. -/
theorem C9_concrete_test2_witness :
    isQR (flipM (leading Ptest)ᵀ) 1 Utest ∧
    (KRT_from_P Ptest 1 Utest = (Ktest, Rtest, Ttest) ∧
     Rtest.det = 1 ∧ Ktest * augment Rtest Ttest = Ptest) :=
  ⟨isQR_test, C9_concrete_test2 1 Utest isQR_test⟩

/-- C10: for every nonsingular input, the orthogonal factor returned by
`rf_rq` after its sign canonicalization has determinant exactly `+1`
(a proper rotation), and the canonicalization preserves both the
product of the two factors (it equals the pre-fix product
`flipM Uᵀ * flipM Qᵀ`) and the upper-triangularity of the first
factor. -/
theorem C10_proper_orthogonal (A Q U : Mat3) (hA : A.det ≠ 0)
    (hqr : isQR (flipM Aᵀ) Q U) :
    (rf_rq Q U).2.det = 1 ∧
    (rf_rq Q U).1 * (rf_rq Q U).2 = flipM Uᵀ * flipM Qᵀ ∧
    upperTri (rf_rq Q U).1 := by
  obtain ⟨h1, h2, h3, h4⟩ := rf_rq_spec hqr
  refine ⟨h4, ?_, h1⟩
  rw [h2, oracle_prod hqr.2.2]

/-- C10 witness: `A = Htest` with QR pair `(1, Utest)`. -/
theorem C10_proper_orthogonal_witness :
    Htest.det ≠ 0 ∧ isQR (flipM Htestᵀ) 1 Utest ∧
    ((rf_rq 1 Utest).2.det = 1 ∧
     (rf_rq 1 Utest).1 * (rf_rq 1 Utest).2 = flipM Utestᵀ * flipM (1 : Mat3)ᵀ ∧
     upperTri (rf_rq 1 Utest).1) := by
  have hA : Htest.det ≠ 0 := by rw [det_Htest]; norm_num
  have hqr : isQR (flipM Htestᵀ) 1 Utest := by
    have h := isQR_test
    rwa [leading_Ptest] at h
  exact ⟨hA, hqr, C10_proper_orthogonal Htest 1 Utest hA hqr⟩
